import Mathlib

/-!
Verification of the SVD image-compression core in `scripts/svd.py` and the
parameter-sweep driver in `scripts/compress.py`.

The embedding works over exact rationals (ℚ).  NumPy arrays become lists
(vectors) and lists of lists (row-major matrices).  The singular-value
decomposition itself (`np.linalg.svd`) is an external numerical routine; all
functions of `svd.py` downstream of it are embedded directly, taking the
factor matrices `u, sigma, vt` as inputs.  Fallible NumPy operations
(out-of-bounds indexing, which raises `IndexError`, and the division whose
result is then cast from NaN to `uint8`, which has no defined value) are
modelled with `Option`.
-/

namespace SvdCompress

/-- `np.argmax` on a boolean vector: index of the first `true`, and `0` when
every entry is `false` (the maximum of an all-`false` vector is `false`,
first attained at index 0).  NumPy raises on an empty array; the claims only
use nonempty spectra, and this model returns 0 there. -/
def npArgmax (mask : List Bool) : Nat :=
  if mask.any id then mask.findIdx id else 0

/-- `np.cumsum` on a 1-D array: entry `i` is the sum of the first `i + 1`
inputs. -/
def npCumsum (xs : List ℚ) : List ℚ :=
  (List.range xs.length).map (fun i => (xs.take (i + 1)).sum)

/-- `_get_explained_variance` (svd.py lines 106-110): squares the singular
values, divides by the total variance, and takes the running (cumulative)
sum.  In ℚ the division by a zero total variance yields 0; in NumPy it
yields NaN — both make every comparison `entry >= t` false for `t > 0`,
which is the only way the result is consumed. -/
def explainedVariance (sigma : List ℚ) : List ℚ :=
  let totalVariance := (sigma.map (fun s => s ^ 2)).sum
  let varianceExplained := sigma.map (fun s => s ^ 2 / totalVariance)
  npCumsum varianceExplained

/-- svd.py line 216: `np.argmax(cumulative_variance >= explained_variance) + 1`,
the rank chosen by the explained-variance policy, as a function of the
cumulative-variance vector and the threshold. -/
def selectK (cumulative : List ℚ) (t : ℚ) : Nat :=
  npArgmax (cumulative.map (fun x => decide (t ≤ x))) + 1

/-- Length of the Python slice `xs[:k]` of a list of length `len`, for an
arbitrary (possibly negative) integer `k`: a nonnegative `k` keeps the first
`min k len` elements, a negative `k` drops the last `min (-k) len` elements. -/
def pySliceLen (len : Nat) (k : ℤ) : Nat :=
  if 0 ≤ k then min k.toNat len else len - min (-k).toNat len

/-- `_get_top_k_singular_values` (svd.py lines 76-78): `np.zeros_like(sigma)`
followed by `sigma_aux[:k] = sigma[:k]` — the first slice-of-`k` entries of
`sigma` followed by zeros, with Python slice semantics for `k` (no clamping
of negative `k` to 1: `[:k]` with negative `k` keeps all but the last `-k`
entries). -/
def getTopK (sigma : List ℚ) (k : ℤ) : List ℚ :=
  sigma.take (pySliceLen sigma.length k) ++
    List.replicate (sigma.length - pySliceLen sigma.length k) 0

/-- `np.dot` on 2-D arrays (matrix product), written by coordinates:
entry `(i, j)` is `Σ_l a[i][l] * b[l][j]`.  Faithful on shape-compatible
inputs, which is how svd.py uses it. -/
def matMul (a b : List (List ℚ)) : List (List ℚ) :=
  a.map (fun row =>
    (List.range (b.headD []).length).map (fun j =>
      ((List.range row.length).map
        (fun l => row.getD l 0 * (b.getD l []).getD j 0)).sum))

/-- `np.diag(sigma)`: the square matrix with `sigma` on the diagonal. -/
def npDiag (sigma : List ℚ) : List (List ℚ) :=
  (List.range sigma.length).map (fun i =>
    (List.range sigma.length).map (fun j => if i = j then sigma.getD i 0 else 0))

/-- `np.min` over a 2-D array (0 on an empty array, which NumPy rejects;
all uses here are on nonempty matrices). -/
def npMin (m : List (List ℚ)) : ℚ :=
  match m.flatten with
  | [] => 0
  | x :: xs => xs.foldl min x

/-- `np.max` over a 2-D array (0 on an empty array). -/
def npMax (m : List (List ℚ)) : ℚ :=
  match m.flatten with
  | [] => 0
  | x :: xs => xs.foldl max x

/-- The C cast of a real value to an integer type as performed by
`.astype(np.uint8)` on an in-range value: truncation toward zero.  (For
values outside `[0, 255]` or NaN the NumPy cast is undefined behaviour; the
theorems below only apply it where the value is proved in range, and the
NaN case — `max = min` — is modelled as `none` upstream.) -/
def castTrunc (q : ℚ) : ℤ :=
  if 0 ≤ q then ⌊q⌋ else -⌊-q⌋

/-- `_reconstruct_channel` (svd.py lines 144-151): reconstruct
`u · diag(sigma) · vt`, then min-max rescale into `[0, 255]` and cast to
`uint8`.  When `max = min` the code computes `0 * 255 / 0` (NaN) in every
cell and casts NaN to `uint8`, which has no defined result: that degenerate
case is modelled as `none`. -/
def reconstructChannel (u : List (List ℚ)) (sigma : List ℚ)
    (vt : List (List ℚ)) : Option (List (List ℤ)) :=
  let reconstructedImg := matMul u (matMul (npDiag sigma) vt)
  let minVal := npMin reconstructedImg
  let maxVal := npMax reconstructedImg
  if maxVal = minVal then none
  else some (reconstructedImg.map (fun row =>
    row.map (fun x => castTrunc ((x - minVal) * 255 / (maxVal - minVal)))))

/-- 1-D NumPy indexing `xs[i]` with an integer index: negative indices wrap
once from the end; anything still out of bounds raises `IndexError`,
modelled as `none`.  This is the access `cumulative_variance[k_components - 1]`
of svd.py line 224. -/
def npIndex (xs : List ℚ) (i : ℤ) : Option ℚ :=
  if 0 ≤ i then xs.get? i.toNat
  else if (-i).toNat ≤ xs.length then xs.get? (xs.length - (-i).toNat)
  else none

/-- Per-channel outputs of the loop body of `compress_image_using_svd`
(svd.py lines 211-225): the reconstructed channel, the recorded
`variance_explained` entry and the recorded `num_components` entry. -/
structure ChannelResult where
  channel : List (List ℤ)
  varianceExplained : ℚ
  numComponents : ℤ
  deriving Repr, DecidableEq

/-- The `k_components` value used by one iteration of the channel loop of
`compress_image_using_svd` (svd.py lines 197-216): the guard
`if k_components:` on line 199 treats both `None` and `0` as "not given",
in which case line 216 computes the rank from the channel's own
cumulative variance; any other given value is used as-is. -/
def chooseK (sigma : List ℚ) (explainedVarianceParam : ℚ)
    (kComponents : Option ℤ) : ℤ :=
  match kComponents with
  | some k =>
    if k = 0 then (selectK (explainedVariance sigma) explainedVarianceParam : ℤ) else k
  | none => (selectK (explainedVariance sigma) explainedVarianceParam : ℤ)

/-- One iteration of the channel loop of `compress_image_using_svd`
(svd.py lines 211-225).  The metadata access
`cumulative_variance[k_components - 1]` (line 224) can raise `IndexError`,
hence the `Option`. -/
def processChannel (u : List (List ℚ)) (sigma : List ℚ) (vt : List (List ℚ))
    (explainedVarianceParam : ℚ) (kComponents : Option ℤ) : Option ChannelResult :=
  match reconstructChannel u
          (getTopK sigma (chooseK sigma explainedVarianceParam kComponents)) vt,
        npIndex (explainedVariance sigma)
          (chooseK sigma explainedVarianceParam kComponents - 1) with
  | some channel, some v =>
      some ⟨channel, v, chooseK sigma explainedVarianceParam kComponents⟩
  | _, _ => none

/-- `np.stack([r, g, b], axis=-1)` on three 2-D arrays of equal shape:
the 3-D array whose innermost entries are the `[r, g, b]` triples. -/
def stackLast (r g b : List (List ℤ)) : List (List (List ℤ)) :=
  List.zipWith (fun (rg : List ℤ × List ℤ) (brow : List ℤ) =>
      List.zipWith (fun (xy : ℤ × ℤ) (z : ℤ) => [xy.1, xy.2, z])
        (rg.1.zip rg.2) brow)
    (r.zip g) b

/-- One channel's SVD factors `(u, sigma, vt)` as returned by
`np.linalg.svd(channel, full_matrices=False)` — the external numerical
decomposition the pipeline consumes. -/
abbrev Decomp := List (List ℚ) × List ℚ × List (List ℚ)

/-- The result of `compress_image_using_svd`: the stacked image and the
per-channel metadata dictionaries. -/
structure CompressResult where
  image : List (List (List ℤ))
  red : ChannelResult
  green : ChannelResult
  blue : ChannelResult
  deriving Repr, DecidableEq

/-- `compress_image_using_svd` (svd.py lines 154-227), downstream of the
external `np.linalg.svd` call: the three channel factor triples are inputs.
The loop over `{red, green, blue}` applies `processChannel` independently
to each channel with the same parameters (when `k_components` is falsy the
rank is recomputed from each channel's own spectrum, exactly as the Python
loop reassigns `k_components` on every iteration). -/
def compressFromSVD (red green blue : Decomp) (explainedVarianceParam : ℚ)
    (kComponents : Option ℤ) : Option CompressResult :=
  match processChannel red.1 red.2.1 red.2.2 explainedVarianceParam kComponents,
        processChannel green.1 green.2.1 green.2.2 explainedVarianceParam kComponents,
        processChannel blue.1 blue.2.1 blue.2.2 explainedVarianceParam kComponents with
  | some r, some g, some b =>
      some ⟨stackLast r.channel g.channel b.channel, r, g, b⟩
  | _, _, _ => none

/-- Rounding to the nearest integer (halves up), the "round" of the spec's
rescale description.  Used only to compare the spec's wording against the
code's actual cast. -/
def specRound (q : ℚ) : ℤ :=
  ⌊q + 1 / 2⌋

/-- The spec's wording of `ChannelReconstructor` ("linearly map
[min, max] → [0, 255]; round and cast to 8-bit unsigned"): identical to
`reconstructChannel` except that the rescaled value is rounded to the
nearest integer instead of truncated.  This definition follows the spec's
words, not the source, and exists only to be compared with
`reconstructChannel`. -/
def reconstructChannelSpec (u : List (List ℚ)) (sigma : List ℚ)
    (vt : List (List ℚ)) : Option (List (List ℤ)) :=
  let reconstructedImg := matMul u (matMul (npDiag sigma) vt)
  let minVal := npMin reconstructedImg
  let maxVal := npMax reconstructedImg
  if maxVal = minVal then none
  else some (reconstructedImg.map (fun row =>
    row.map (fun x => specRound ((x - minVal) * 255 / (maxVal - minVal)))))

/-- `data[param] = value` on a Python `dict`, modelled as an
insertion-ordered association list: an existing key is overwritten in
place, a new key is appended. -/
def pydictUpdate {κ ν : Type} [DecidableEq κ] (d : List (κ × ν)) (k : κ) (v : ν) :
    List (κ × ν) :=
  if d.any (fun kv => kv.1 = k) then
    d.map (fun kv => if kv.1 = k then (k, v) else kv)
  else d ++ [(k, v)]

/-- `compress_images` (compress.py lines 65-105): outer loop over
`param_set`, inner loop over `zip(images[:num_images], image_names[:num_images])`,
storing each parameter's bucket into an insertion-ordered `dict`.
`images : List α` stands for the zipped (image, name) pairs, and
`body param img` abstracts the per-(parameter, image) loop body (svd/jp2
compression, the PNG/JP2 round-trip and `calculate_metrics`), which depends
only on the parameter and that image's data — the loop body reads nothing
else.  `numImages = none` is the Python default `None`; `if not num_images:`
also treats an explicit `0` as "all images". -/
def compressImages {α γ : Type} (paramSet : List ℚ) (images : List α)
    (numImages : Option Nat) (body : ℚ → α → γ) : List (ℚ × List γ) :=
  let n := match numImages with
    | none => images.length
    | some m => if m = 0 then images.length else m
  paramSet.foldl
    (fun data param => pydictUpdate data param ((images.take n).map (body param)))
    []

/-! ## General lemmas about the embedded operations -/

/-- When every entry of the cumulative-variance vector is strictly below the
threshold, the boolean mask `cumulative >= t` is all-false, `np.argmax`
returns 0, and the selected rank is 1. -/
theorem selectK_eq_one_of_all_lt (cum : List ℚ) (t : ℚ) (h : ∀ x ∈ cum, x < t) :
    selectK cum t = 1 := by
  have hany : (cum.map fun x => decide (t ≤ x)).any id = false := by
    rw [List.any_eq_false]
    intro b hb
    simp only [List.mem_map] at hb
    obtain ⟨x, hx, rfl⟩ := hb
    simp [not_le.mpr (h x hx)]
  unfold selectK npArgmax
  rw [hany]
  norm_num

/-- A cumulative sum of zeros is all zeros. -/
theorem npCumsum_eq_zero (xs : List ℚ) (h : ∀ x ∈ xs, x = 0) :
    ∀ y ∈ npCumsum xs, y = 0 := by
  intro y hy
  simp only [npCumsum, List.mem_map, List.mem_range] at hy
  obtain ⟨i, _, rfl⟩ := hy
  apply List.sum_eq_zero
  intro x hx
  exact h x (List.take_subset _ _ hx)

/-- With an all-zero spectrum every cumulative-variance entry is zero (the
`0 / 0` of the embedding; NaN in NumPy — either way no entry satisfies
`>= t` for a positive `t`). -/
theorem explainedVariance_eq_zero (sigma : List ℚ) (h : ∀ s ∈ sigma, s = 0) :
    ∀ y ∈ explainedVariance sigma, y = 0 := by
  intro y hy
  apply npCumsum_eq_zero _ _ y hy
  intro x hx
  simp only [List.mem_map] at hx
  obtain ⟨s, hs, rfl⟩ := hx
  rw [h s hs]
  norm_num

/-- When some entry of the cumulative vector reaches the threshold,
`np.argmax(cumulative >= t) + 1` is the smallest 1-indexed `k` whose entry
satisfies the threshold: the selected index is in range, its entry reaches
`t`, and every strictly earlier entry is below `t`. -/
theorem selectK_is_smallest (cum : List ℚ) (t : ℚ)
    (hreach : ∃ c ∈ cum, t ≤ c) :
    1 ≤ selectK cum t ∧
    selectK cum t ≤ cum.length ∧
    (∃ c, cum.get? (selectK cum t - 1) = some c ∧ t ≤ c) ∧
    (∀ j c, j < selectK cum t - 1 → cum.get? j = some c → c < t) := by
  obtain ⟨c0, hc0mem, hc0⟩ := hreach
  have hany : (cum.map fun x => decide (t ≤ x)).any id = true := by
    rw [List.any_eq_true]
    exact ⟨decide (t ≤ c0), List.mem_map_of_mem _ hc0mem, by simp [hc0]⟩
  have hsel : selectK cum t = (cum.map fun x => decide (t ≤ x)).findIdx id + 1 := by
    unfold selectK npArgmax
    rw [if_pos hany]
  have hidx : (cum.map fun x => decide (t ≤ x)).findIdx id <
      (cum.map fun x => decide (t ≤ x)).length := by
    apply List.findIdx_lt_length_of_exists
    rw [← List.any_eq_true]
    exact hany
  have hlen : (cum.map fun x => decide (t ≤ x)).length = cum.length :=
    List.length_map _ _
  have hidx2 : (cum.map fun x => decide (t ≤ x)).findIdx id < cum.length := by
    omega
  refine ⟨by omega, by omega, ?_, ?_⟩
  · rw [hsel, Nat.add_sub_cancel]
    refine ⟨cum.get ⟨_, hidx2⟩, List.get?_eq_get hidx2, ?_⟩
    have := @List.findIdx_getElem Bool id (cum.map fun x => decide (t ≤ x)) hidx
    rw [List.getElem_map] at this
    rw [List.get_eq_getElem]
    exact of_decide_eq_true this
  · intro j c hj hjc
    rw [hsel, Nat.add_sub_cancel] at hj
    have hnot := List.not_of_lt_findIdx hj
    have hjlen : j < cum.length := (List.get?_eq_some.mp hjc).1
    rw [List.getElem_map] at hnot
    have hc : cum[j] = c := by
      have := List.get?_eq_get hjlen
      rw [hjc] at this
      rw [List.get_eq_getElem] at this
      exact (Option.some.injEq _ _).mp this.symm
    rw [hc] at hnot
    simp only [id] at hnot
    exact not_le.mp (of_decide_eq_false hnot)

/-- A left fold of `min` never exceeds its initial accumulator. -/
theorem foldl_min_le (xs : List ℚ) (a : ℚ) : xs.foldl min a ≤ a := by
  induction xs generalizing a with
  | nil => simp
  | cons x xs ih =>
    simp only [List.foldl_cons]
    exact le_trans (ih (min a x)) (min_le_left a x)

/-- A left fold of `min` never exceeds any list element. -/
theorem foldl_min_le_mem (xs : List ℚ) (a y : ℚ) (hy : y ∈ xs) :
    xs.foldl min a ≤ y := by
  induction xs generalizing a with
  | nil => cases hy
  | cons x xs ih =>
    simp only [List.foldl_cons]
    rcases List.mem_cons.mp hy with rfl | hmem
    · exact le_trans (foldl_min_le xs (min a y)) (min_le_right a y)
    · exact ih (min a x) hmem

/-- A left fold of `max` dominates its initial accumulator. -/
theorem le_foldl_max (xs : List ℚ) (a : ℚ) : a ≤ xs.foldl max a := by
  induction xs generalizing a with
  | nil => simp
  | cons x xs ih =>
    simp only [List.foldl_cons]
    exact le_trans (le_max_left a x) (ih (max a x))

/-- A left fold of `max` dominates every list element. -/
theorem mem_le_foldl_max (xs : List ℚ) (a y : ℚ) (hy : y ∈ xs) :
    y ≤ xs.foldl max a := by
  induction xs generalizing a with
  | nil => cases hy
  | cons x xs ih =>
    simp only [List.foldl_cons]
    rcases List.mem_cons.mp hy with rfl | hmem
    · exact le_trans (le_max_right a y) (le_foldl_max xs (max a y))
    · exact ih (max a x) hmem

/-- `np.min` is a lower bound on every matrix entry. -/
theorem npMin_le (m : List (List ℚ)) (x : ℚ) (hx : x ∈ m.flatten) :
    npMin m ≤ x := by
  unfold npMin
  cases hfl : m.flatten with
  | nil => rw [hfl] at hx; cases hx
  | cons h tl =>
    rw [hfl] at hx
    rcases List.mem_cons.mp hx with rfl | hmem
    · exact foldl_min_le tl x
    · exact foldl_min_le_mem tl h x hmem

/-- `np.max` is an upper bound on every matrix entry. -/
theorem le_npMax (m : List (List ℚ)) (x : ℚ) (hx : x ∈ m.flatten) :
    x ≤ npMax m := by
  unfold npMax
  cases hfl : m.flatten with
  | nil => rw [hfl] at hx; cases hx
  | cons h tl =>
    rw [hfl] at hx
    rcases List.mem_cons.mp hx with rfl | hmem
    · exact le_foldl_max tl x
    · exact mem_le_foldl_max tl h x hmem

/-- The Python slice `[:k]` never keeps more elements than the list has. -/
theorem pySliceLen_le (len : Nat) (k : ℤ) : pySliceLen len k ≤ len := by
  unfold pySliceLen
  split <;> omega

/-- Zeroing the spectrum beyond `k` keeps its length (the truncated
spectrum is `np.zeros_like(sigma)` partially overwritten). -/
theorem getTopK_length (sigma : List ℚ) (k : ℤ) :
    (getTopK sigma k).length = sigma.length := by
  have := pySliceLen_le sigma.length k
  simp only [getTopK, List.length_append, List.length_take, List.length_replicate]
  omega

/-- A matrix product has one row per row of the left factor. -/
theorem matMul_length (a b : List (List ℚ)) : (matMul a b).length = a.length :=
  List.length_map _ _

/-- Every row of a matrix product has one entry per column of the right
factor. -/
theorem matMul_row_length (a b : List (List ℚ)) :
    ∀ row ∈ matMul a b, row.length = (b.headD []).length := by
  intro row hrow
  simp only [matMul, List.mem_map] at hrow
  obtain ⟨r0, _, hr0⟩ := hrow
  rw [← hr0, List.length_map, List.length_range]

/-- The first row of a product of a nonempty left factor has one entry per
column of the right factor. -/
theorem matMul_headD_length (a b : List (List ℚ)) (ha : a ≠ []) :
    ((matMul a b).headD []).length = (b.headD []).length := by
  cases a with
  | nil => exact absurd rfl ha
  | cons a0 aa =>
    show ((List.range (b.headD []).length).map _).length = _
    rw [List.length_map, List.length_range]

/-- `np.diag` of a nonempty spectrum is a nonempty matrix. -/
theorem npDiag_ne_nil (sigma : List ℚ) (h : 0 < sigma.length) :
    npDiag sigma ≠ [] := by
  intro he
  have hlen := congrArg List.length he
  simp only [npDiag, List.length_map, List.length_range, List.length_nil] at hlen
  omega

/-- A successfully reconstructed channel has one row per row of `u` and one
column per column of `vt`. -/
theorem reconstructChannel_dims (u : List (List ℚ)) (sigma : List ℚ)
    (vt : List (List ℚ)) (c : List (List ℤ)) (hs : 0 < sigma.length)
    (h : reconstructChannel u sigma vt = some c) :
    c.length = u.length ∧ ∀ row ∈ c, row.length = (vt.headD []).length := by
  unfold reconstructChannel at h
  by_cases hdeg : npMax (matMul u (matMul (npDiag sigma) vt)) =
      npMin (matMul u (matMul (npDiag sigma) vt))
  · rw [if_pos hdeg] at h
    exact absurd h (by simp)
  · rw [if_neg hdeg] at h
    have hc := Option.some.inj h
    constructor
    · rw [← hc, List.length_map, matMul_length]
    · intro row hrow
      rw [← hc] at hrow
      simp only [List.mem_map] at hrow
      obtain ⟨r0, hr0, hrow0⟩ := hrow
      rw [← hrow0, List.length_map]
      rw [matMul_row_length u (matMul (npDiag sigma) vt) r0 hr0]
      exact matMul_headD_length _ _ (npDiag_ne_nil sigma hs)

/-- A successful channel iteration reconstructs its channel from a
truncated spectrum of the same length as the channel's spectrum. -/
theorem processChannel_channel (u : List (List ℚ)) (s : List ℚ)
    (v : List (List ℚ)) (evar : ℚ) (kOpt : Option ℤ) (r : ChannelResult)
    (h : processChannel u s v evar kOpt = some r) :
    ∃ sig : List ℚ, sig.length = s.length ∧
      reconstructChannel u sig v = some r.channel := by
  unfold processChannel at h
  cases hrc : reconstructChannel u (getTopK s (chooseK s evar kOpt)) v with
  | none => rw [hrc] at h; simp at h
  | some c =>
    cases hni : npIndex (explainedVariance s) (chooseK s evar kOpt - 1) with
    | none => rw [hrc, hni] at h; simp at h
    | some vv =>
      rw [hrc, hni] at h
      simp only [Option.some.injEq] at h
      refine ⟨getTopK s (chooseK s evar kOpt), getTopK_length _ _, ?_⟩
      rw [hrc, ← h]

/-- Stacking three equally tall channels keeps the row count. -/
theorem stackLast_length (r g b : List (List ℤ)) (hg : g.length = r.length)
    (hb : b.length = r.length) : (stackLast r g b).length = r.length := by
  unfold stackLast
  rw [List.length_zipWith, List.length_zip]
  omega

/-- Every entry produced by the inner zip of `stackLast` is an
`[r, g, b]` triple. -/
theorem zipWith_triple_mem (l : List (ℤ × ℤ)) (b : List ℤ) (px : List ℤ)
    (h : px ∈ List.zipWith (fun (xy : ℤ × ℤ) z => [xy.1, xy.2, z]) l b) :
    px.length = 3 := by
  induction l generalizing b with
  | nil => simp at h
  | cons x xs ih =>
    cases b with
    | nil => simp at h
    | cons y ys =>
      rcases List.mem_cons.mp h with rfl | hm
      · rfl
      · exact ih ys hm

/-- Every row of a stack of three width-`w` channels has width `w`, and
every pixel holds exactly 3 components. -/
theorem stackLast_rows (r g b : List (List ℤ)) (w : ℕ)
    (hr : ∀ row ∈ r, row.length = w) (hg : ∀ row ∈ g, row.length = w)
    (hb : ∀ row ∈ b, row.length = w) :
    ∀ row ∈ stackLast r g b, row.length = w ∧ ∀ px ∈ row, px.length = 3 := by
  induction r generalizing g b with
  | nil => intro row hrow; simp [stackLast] at hrow
  | cons r0 rr ih =>
    intro row hrow
    cases g with
    | nil => simp [stackLast] at hrow
    | cons g0 gg =>
      cases b with
      | nil => simp [stackLast] at hrow
      | cons b0 bb =>
        rw [show stackLast (r0 :: rr) (g0 :: gg) (b0 :: bb) =
            (List.zipWith (fun (xy : ℤ × ℤ) z => [xy.1, xy.2, z]) (r0.zip g0) b0) ::
              stackLast rr gg bb from rfl] at hrow
        rcases List.mem_cons.mp hrow with rfl | hmem
        · constructor
          · rw [List.length_zipWith, List.length_zip,
              hr r0 (List.mem_cons_self _ _), hg g0 (List.mem_cons_self _ _),
              hb b0 (List.mem_cons_self _ _)]
            omega
          · intro px hpx
            exact zipWith_triple_mem _ _ px hpx
        · exact ih gg bb (fun row h => hr row (List.mem_cons_of_mem _ h))
            (fun row h => hg row (List.mem_cons_of_mem _ h))
            (fun row h => hb row (List.mem_cons_of_mem _ h)) row hmem

/-- Folding `dict` insertions over keys that are pairwise fresh (no
duplicates among themselves, none already in the accumulator) appends the
buckets in iteration order. -/
theorem foldl_pydictUpdate_fresh {γ : Type} (f : ℚ → γ) (ps : List ℚ) :
    ∀ acc : List (ℚ × γ), ps.Nodup →
      (∀ p ∈ ps, ∀ kv ∈ acc, kv.1 ≠ p) →
      ps.foldl (fun d param => pydictUpdate d param (f param)) acc =
        acc ++ ps.map (fun p => (p, f p)) := by
  induction ps with
  | nil => intro acc _ _; simp
  | cons p ps ih =>
    intro acc hnd hkeys
    obtain ⟨hp, hnd2⟩ := List.nodup_cons.mp hnd
    simp only [List.foldl_cons, List.map_cons]
    have hstep : pydictUpdate acc p (f p) = acc ++ [(p, f p)] := by
      unfold pydictUpdate
      rw [if_neg]
      intro hany
      rw [List.any_eq_true] at hany
      obtain ⟨kv, hkv, hkvp⟩ := hany
      exact hkeys p (List.mem_cons_self _ _) kv hkv (of_decide_eq_true hkvp)
    rw [hstep]
    rw [ih (acc ++ [(p, f p)]) hnd2 ?_]
    · rw [List.append_assoc]
      rfl
    · intro q hq kv hkv
      rcases List.mem_append.mp hkv with hin | hin
      · exact hkeys q (List.mem_cons_of_mem _ hq) kv hin
      · have : kv = (p, f p) := by simpa using hin
        rw [this]
        intro he
        simp only at he
        rw [he] at hp
        exact hp hq

/-! ## Claim theorems -/

/-- C1.  For a spectrum with positive total variance and a threshold
`t ∈ (0, 1]` that some cumulative-variance entry reaches, the
explained-variance policy (svd.py line 216) selects the smallest 1-indexed
`k` with `cumulative_variance[k-1] ≥ t`: the chosen `k` is in `[1, r]`,
its entry reaches `t`, and every entry before it is strictly below `t` —
never a larger index. -/
theorem explainedVariance_selectK_is_smallest (sigma : List ℚ) (t : ℚ)
    (ht0 : 0 < t) (ht1 : t ≤ 1)
    (hvar : 0 < (sigma.map (fun s => s ^ 2)).sum)
    (hreach : ∃ c ∈ explainedVariance sigma, t ≤ c) :
    1 ≤ selectK (explainedVariance sigma) t ∧
    selectK (explainedVariance sigma) t ≤ (explainedVariance sigma).length ∧
    (∃ c, (explainedVariance sigma).get?
        (selectK (explainedVariance sigma) t - 1) = some c ∧ t ≤ c) ∧
    (∀ j c, j < selectK (explainedVariance sigma) t - 1 →
      (explainedVariance sigma).get? j = some c → c < t) :=
  selectK_is_smallest (explainedVariance sigma) t hreach

/-- Witness for C1 at the spectrum `[4, 3]` (cumulative variance
`[16/25, 1]`) with threshold `1/2`: the hypotheses hold there and the
theorem gives the in-range bounds on the selected rank. -/
theorem explainedVariance_selectK_is_smallest_witness :
    1 ≤ selectK (explainedVariance [4, 3]) (1/2) ∧
    selectK (explainedVariance [4, 3]) (1/2) ≤ (explainedVariance [4, 3]).length :=
  ⟨(explainedVariance_selectK_is_smallest [4, 3] (1/2) (by norm_num) (by norm_num)
      (by with_unfolding_all decide) (by with_unfolding_all decide)).1,
   (explainedVariance_selectK_is_smallest [4, 3] (1/2) (by norm_num) (by norm_num)
      (by with_unfolding_all decide) (by with_unfolding_all decide)).2.1⟩

/-- C2 (code-bug evidence).  The claim: when no cumulative-variance entry
reaches the threshold `t`, rank selection clamps `k` to the full rank `r`.
The code instead computes `np.argmax` of an all-false mask, which is 0, and
selects `k = 1`: on a length-3 cumulative-variance vector none of whose
entries reaches `t = 1.0` (possible only through floating-point rounding of
the true cumulative sum), line 216 of svd.py yields `k = 1`, not
`k = r = 3`. -/
theorem selectK_unreachable_threshold_returns_one :
    selectK [1/2, 4/5, 9999/10000] 1 = 1 ∧
      ([1/2, 4/5, 9999/10000] : List ℚ).length = 3 := by
  with_unfolding_all decide

/-- C4.  For a spectrum of all-zero singular values (zero total variance),
rank selection under the explained-variance policy returns `k = 1`,
deterministically and without failing: every cumulative entry compares
false against a positive threshold, so `np.argmax` returns 0 and
`k = 0 + 1 = 1`. -/
theorem zero_variance_selects_one (sigma : List ℚ) (t : ℚ)
    (hz : ∀ s ∈ sigma, s = 0) (ht : 0 < t) :
    selectK (explainedVariance sigma) t = 1 := by
  apply selectK_eq_one_of_all_lt
  intro x hx
  rw [explainedVariance_eq_zero sigma hz x hx]
  exact ht

/-- Witness for C4 at the concrete all-zero spectrum `[0, 0]` with
threshold `1/2`. -/
theorem zero_variance_selects_one_witness :
    selectK (explainedVariance [0, 0]) (1/2) = 1 :=
  zero_variance_selects_one [0, 0] (1/2) (by with_unfolding_all decide)
    (by norm_num)

/-- C5 (code-bug evidence).  The claim: on a decomposition whose truncated
reconstruction is constant (max = min), the reconstructor returns a defined
deterministic constant channel.  The code instead divides by
`max_val - min_val = 0` (yielding NaN in every cell) and casts NaN to
`uint8`, which has no defined result — modelled as `none`.  Evaluated here
at the flat reconstruction `u·diag(0)·vt = 0` of a 2×2 channel. -/
theorem flat_reconstruction_has_no_defined_value :
    reconstructChannel [[1], [1]] [0] [[1, 1]] = none := by
  with_unfolding_all decide

/-- C10.  Passing `k_components = 0` is the same as omitting it: the guard
`if k_components:` on svd.py line 199 treats 0 as falsy, so `k_given`
stays false and the explained-variance policy is applied, for every image
(every triple of channel factors) and every threshold. -/
theorem kComponents_zero_is_default (red green blue : Decomp) (evar : ℚ) :
    compressFromSVD red green blue evar (some 0) =
      compressFromSVD red green blue evar none := rfl

/-- C3 (code-bug evidence).  The claim: an out-of-range `k_req` is clamped
into `[1, r]` and the call succeeds, recording `min(max(k_req, 1), r)`
components.  The code does not clamp: (a) with `k_req = 3 > r = 2` the
metadata access `cumulative_variance[k_components - 1]` (svd.py line 224)
indexes position 2 of a length-2 array — an `IndexError`, so the call
fails instead of succeeding with 2 components; (b) with `k_req = -1` the
channel loop succeeds but records `num_components = -1` (not the clamped
1), having silently kept `r - 1` spectral components via the Python slice
`sigma[:-1]`. -/
theorem fixedRank_out_of_range_not_clamped :
    compressFromSVD ([[1,0],[0,1]], [2,1], [[1,0],[0,1]])
      ([[1,0],[0,1]], [2,1], [[1,0],[0,1]])
      ([[1,0],[0,1]], [2,1], [[1,0],[0,1]]) (1/2) (some 3) = none ∧
    processChannel [[1,0],[0,1]] [2,1] [[1,0],[0,1]] (1/2) (some (-1)) =
      some ⟨[[255,0],[0,0]], 4/5, -1⟩ := by
  with_unfolding_all decide

/-- C6 (counterexample).  The claim quantifies over every decomposition and
every retained count; at a flat decomposition (all singular values zero)
the reconstructor does not return a channel of in-range pixels at all —
the rescale divides by zero and the NaN-to-uint8 cast has no defined
result. -/
theorem range_invariant_fails_on_flat_channel :
    ¬ ∃ c, reconstructChannel [[2], [2]] [0] [[1, 1]] = some c := by
  rintro ⟨c, hc⟩
  rw [show reconstructChannel [[2], [2]] [0] [[1, 1]] = none by
    with_unfolding_all decide] at hc
  exact Option.noConfusion hc

/-- C7 (counterexample).  The claim says the rescaled value is *rounded*
before the cast to `uint8`; `.astype(np.uint8)` truncates instead.  On the
reconstruction `[[0], [1], [2]]` the middle pixel rescales to `127.5`: the
code produces 127 where the spec's rounding description produces 128. -/
theorem rescale_truncates_not_rounds :
    reconstructChannel [[0], [1], [2]] [1] [[1]] = some [[0], [127], [255]] ∧
    reconstructChannelSpec [[0], [1], [2]] [1] [[1]] = some [[0], [128], [255]] ∧
    reconstructChannel [[0], [1], [2]] [1] [[1]] ≠
      reconstructChannelSpec [[0], [1], [2]] [1] [[1]] := by
  with_unfolding_all decide

/-- C6 (amended).  Whenever the reconstructor returns a channel — that is,
whenever the truncated reconstruction has positive dynamic range
(max > min), which excludes the degenerate flat case of the
counterexample — every pixel of that channel is an integer in `[0, 255]`:
the min-max rescale maps every entry into `[0, 255]` and the `uint8` cast
truncates within that range. -/
theorem reconstructChannel_range_invariant (u : List (List ℚ)) (sigma : List ℚ)
    (vt : List (List ℚ)) (c : List (List ℤ))
    (h : reconstructChannel u sigma vt = some c) :
    ∀ row ∈ c, ∀ p ∈ row, 0 ≤ p ∧ p ≤ 255 := by
  unfold reconstructChannel at h
  by_cases hdeg : npMax (matMul u (matMul (npDiag sigma) vt)) =
      npMin (matMul u (matMul (npDiag sigma) vt))
  · rw [if_pos hdeg] at h
    exact absurd h (by simp)
  · rw [if_neg hdeg] at h
    have hc := Option.some.inj h
    intro row hrow p hp
    rw [← hc] at hrow
    simp only [List.mem_map] at hrow
    obtain ⟨r0, hr0, hrow0⟩ := hrow
    rw [← hrow0] at hp
    simp only [List.mem_map] at hp
    obtain ⟨x, hxmem, hpx⟩ := hp
    have hxfl : x ∈ (matMul u (matMul (npDiag sigma) vt)).flatten :=
      List.mem_flatten.mpr ⟨r0, hr0, hxmem⟩
    have hmn : npMin (matMul u (matMul (npDiag sigma) vt)) ≤ x := npMin_le _ _ hxfl
    have hmx : x ≤ npMax (matMul u (matMul (npDiag sigma) vt)) := le_npMax _ _ hxfl
    have hlt : npMin (matMul u (matMul (npDiag sigma) vt)) <
        npMax (matMul u (matMul (npDiag sigma) vt)) :=
      lt_of_le_of_ne (le_trans hmn hmx) (fun e => hdeg e.symm)
    set mn := npMin (matMul u (matMul (npDiag sigma) vt)) with hmdef
    set mx := npMax (matMul u (matMul (npDiag sigma) vt)) with hxdef
    have hden : 0 < mx - mn := by linarith
    have hq0 : 0 ≤ (x - mn) * 255 / (mx - mn) :=
      div_nonneg (mul_nonneg (by linarith) (by norm_num)) (le_of_lt hden)
    have hq255 : (x - mn) * 255 / (mx - mn) ≤ 255 := by
      rw [div_le_iff₀ hden]
      nlinarith
    rw [← hpx]
    unfold castTrunc
    rw [if_pos hq0]
    constructor
    · exact Int.le_floor.mpr (by exact_mod_cast hq0)
    · have : (⌊(x - mn) * 255 / (mx - mn)⌋ : ℚ) ≤ 255 :=
        le_trans (Int.floor_le _) hq255
      exact_mod_cast this

/-- Witness for the amended C6 at `u = [[1],[0]]`, `sigma = [1]`,
`vt = [[1,0]]`, whose reconstruction `[[1,0],[0,0]]` rescales to
`[[255,0],[0,0]]`: the definedness hypothesis holds there and the theorem
bounds the corner pixel. -/
theorem reconstructChannel_range_invariant_witness :
    reconstructChannel [[1], [0]] [1] [[1, 0]] = some [[255, 0], [0, 0]] ∧
    0 ≤ (255 : ℤ) ∧ (255 : ℤ) ≤ 255 :=
  ⟨by with_unfolding_all decide,
   reconstructChannel_range_invariant [[1], [0]] [1] [[1, 0]] [[255, 0], [0, 0]]
     (by with_unfolding_all decide) [255, 0] (by simp) 255 (by simp)⟩

/-- C7 (amended).  Whenever the reconstruction has positive dynamic range
(max > min, the case the claim addresses), the rescale step maps each value
`x` to `(x - min) · 255 / (max - min)` and then **truncates** — not
rounds — the result toward zero before the cast to 8-bit unsigned; the
channel minimum still maps to 0 and the channel maximum to 255 (the
endpoints are integers, so truncation and rounding agree there). -/
theorem reconstructChannel_rescale_linear_trunc (u : List (List ℚ))
    (sigma : List ℚ) (vt : List (List ℚ)) (c : List (List ℤ))
    (h : reconstructChannel u sigma vt = some c) :
    c = (matMul u (matMul (npDiag sigma) vt)).map (fun row => row.map (fun x =>
      castTrunc ((x - npMin (matMul u (matMul (npDiag sigma) vt))) * 255 /
        (npMax (matMul u (matMul (npDiag sigma) vt)) -
          npMin (matMul u (matMul (npDiag sigma) vt)))))) ∧
    castTrunc ((npMin (matMul u (matMul (npDiag sigma) vt)) -
        npMin (matMul u (matMul (npDiag sigma) vt))) * 255 /
      (npMax (matMul u (matMul (npDiag sigma) vt)) -
        npMin (matMul u (matMul (npDiag sigma) vt)))) = 0 ∧
    castTrunc ((npMax (matMul u (matMul (npDiag sigma) vt)) -
        npMin (matMul u (matMul (npDiag sigma) vt))) * 255 /
      (npMax (matMul u (matMul (npDiag sigma) vt)) -
        npMin (matMul u (matMul (npDiag sigma) vt)))) = 255 := by
  unfold reconstructChannel at h
  by_cases hdeg : npMax (matMul u (matMul (npDiag sigma) vt)) =
      npMin (matMul u (matMul (npDiag sigma) vt))
  · rw [if_pos hdeg] at h
    exact absurd h (by simp)
  · rw [if_neg hdeg] at h
    refine ⟨(Option.some.inj h).symm, ?_, ?_⟩
    · rw [sub_self, zero_mul, zero_div]
      norm_num [castTrunc]
    · have hne : npMax (matMul u (matMul (npDiag sigma) vt)) -
          npMin (matMul u (matMul (npDiag sigma) vt)) ≠ 0 :=
        sub_ne_zero.mpr hdeg
      rw [mul_comm, mul_div_assoc, div_self hne, mul_one]
      norm_num [castTrunc]

/-- Witness for the amended C7 at the reconstruction `[[0],[2],[4]]`
(min 0, max 4): pixel 2 rescales to `127.5` and truncates to 127, the
endpoints map to 0 and 255. -/
theorem reconstructChannel_rescale_linear_trunc_witness :
    ([[0], [127], [255]] : List (List ℤ)) =
      (matMul [[0],[2],[4]] (matMul (npDiag [1]) [[1]])).map (fun row => row.map (fun x =>
        castTrunc ((x - npMin (matMul [[0],[2],[4]] (matMul (npDiag [1]) [[1]]))) * 255 /
          (npMax (matMul [[0],[2],[4]] (matMul (npDiag [1]) [[1]])) -
            npMin (matMul [[0],[2],[4]] (matMul (npDiag [1]) [[1]])))))) ∧
    castTrunc ((npMin (matMul [[0],[2],[4]] (matMul (npDiag [1]) [[1]])) -
        npMin (matMul [[0],[2],[4]] (matMul (npDiag [1]) [[1]]))) * 255 /
      (npMax (matMul [[0],[2],[4]] (matMul (npDiag [1]) [[1]])) -
        npMin (matMul [[0],[2],[4]] (matMul (npDiag [1]) [[1]])))) = 0 ∧
    castTrunc ((npMax (matMul [[0],[2],[4]] (matMul (npDiag [1]) [[1]])) -
        npMin (matMul [[0],[2],[4]] (matMul (npDiag [1]) [[1]]))) * 255 /
      (npMax (matMul [[0],[2],[4]] (matMul (npDiag [1]) [[1]])) -
        npMin (matMul [[0],[2],[4]] (matMul (npDiag [1]) [[1]])))) = 255 :=
  reconstructChannel_rescale_linear_trunc [[0],[2],[4]] [1] [[1]]
    [[0], [127], [255]] (by with_unfolding_all decide)

/-- C8 (counterexample).  The claim quantifies over every selection
policy, but under `FixedRank(4)` on 2×2 channels (rank 2) the compression
call does not return an image of any shape: it fails with the `IndexError`
of svd.py line 224. -/
theorem shape_claim_fails_on_out_of_range_rank :
    ¬ ∃ out : CompressResult,
      compressFromSVD ([[1, 0], [0, 1]], [3, 1], [[1, 0], [0, 1]])
        ([[1, 0], [0, 1]], [3, 1], [[1, 0], [0, 1]])
        ([[1, 0], [0, 1]], [3, 1], [[1, 0], [0, 1]]) (1/2) (some 4) = some out := by
  rintro ⟨out, hout⟩
  rw [show compressFromSVD ([[1, 0], [0, 1]], [3, 1], [[1, 0], [0, 1]])
      ([[1, 0], [0, 1]], [3, 1], [[1, 0], [0, 1]])
      ([[1, 0], [0, 1]], [3, 1], [[1, 0], [0, 1]]) (1/2) (some 4) = none by
    with_unfolding_all decide] at hout
  exact Option.noConfusion hout

/-- C8 (amended).  For channel factors of the shapes `np.linalg.svd`
produces on an `h × w` channel (`u` has `h` rows, the spectrum is
nonempty, `vt` has `w` columns), whenever compression returns a result —
which excludes the failure cases of the counterexample, of C3 and of
C5 — the reconstructed image has shape `h × w × 3`, identical to the
input image's shape. -/
theorem compressFromSVD_preserves_shape
    (red green blue : Decomp) (evar : ℚ) (kOpt : Option ℤ) (h w : ℕ)
    (hredU : red.1.length = h) (hredS : 0 < red.2.1.length)
    (hredV : (red.2.2.headD []).length = w)
    (hgreenU : green.1.length = h) (hgreenS : 0 < green.2.1.length)
    (hgreenV : (green.2.2.headD []).length = w)
    (hblueU : blue.1.length = h) (hblueS : 0 < blue.2.1.length)
    (hblueV : (blue.2.2.headD []).length = w)
    (out : CompressResult)
    (hout : compressFromSVD red green blue evar kOpt = some out) :
    out.image.length = h ∧
    ∀ row ∈ out.image, row.length = w ∧ ∀ px ∈ row, px.length = 3 := by
  unfold compressFromSVD at hout
  cases hR : processChannel red.1 red.2.1 red.2.2 evar kOpt with
  | none => rw [hR] at hout; simp at hout
  | some r =>
  cases hG : processChannel green.1 green.2.1 green.2.2 evar kOpt with
  | none => rw [hR, hG] at hout; simp at hout
  | some g =>
  cases hB : processChannel blue.1 blue.2.1 blue.2.2 evar kOpt with
  | none => rw [hR, hG, hB] at hout; simp at hout
  | some b =>
    rw [hR, hG, hB] at hout
    simp only [Option.some.injEq] at hout
    obtain ⟨sigR, hsigR, hrcR⟩ := processChannel_channel _ _ _ _ _ _ hR
    obtain ⟨sigG, hsigG, hrcG⟩ := processChannel_channel _ _ _ _ _ _ hG
    obtain ⟨sigB, hsigB, hrcB⟩ := processChannel_channel _ _ _ _ _ _ hB
    obtain ⟨hlenR, hrowR⟩ := reconstructChannel_dims _ _ _ _
      (by rw [hsigR]; exact hredS) hrcR
    obtain ⟨hlenG, hrowG⟩ := reconstructChannel_dims _ _ _ _
      (by rw [hsigG]; exact hgreenS) hrcG
    obtain ⟨hlenB, hrowB⟩ := reconstructChannel_dims _ _ _ _
      (by rw [hsigB]; exact hblueS) hrcB
    rw [hredU] at hlenR
    rw [hgreenU] at hlenG
    rw [hblueU] at hlenB
    constructor
    · rw [← hout]
      show (stackLast r.channel g.channel b.channel).length = h
      rw [stackLast_length _ _ _ (by omega) (by omega)]
      exact hlenR
    · rw [← hout]
      show ∀ row ∈ stackLast r.channel g.channel b.channel, _
      apply stackLast_rows _ _ _ w
      · intro row hrow; rw [hrowR row hrow]; exact hredV
      · intro row hrow; rw [hrowG row hrow]; exact hgreenV
      · intro row hrow; rw [hrowB row hrow]; exact hblueV

/-- Witness for the amended C8: three identical 2×2 identity-factor
channels with spectrum `[2, 1]` under the explained-variance policy
produce a 2×2×3 image — its row count is 2, its first row has 2 pixels,
and the first pixel has 3 components. -/
theorem compressFromSVD_preserves_shape_witness :
    (CompressResult.mk [[[255, 255, 255], [0, 0, 0]], [[0, 0, 0], [0, 0, 0]]]
        ⟨[[255, 0], [0, 0]], 4/5, 1⟩ ⟨[[255, 0], [0, 0]], 4/5, 1⟩
        ⟨[[255, 0], [0, 0]], 4/5, 1⟩).image.length = 2 ∧
    ([[255, 255, 255], [0, 0, 0]] : List (List ℤ)).length = 2 ∧
    ([255, 255, 255] : List ℤ).length = 3 := by
  have hT := compressFromSVD_preserves_shape
    ([[1, 0], [0, 1]], [2, 1], [[1, 0], [0, 1]])
    ([[1, 0], [0, 1]], [2, 1], [[1, 0], [0, 1]])
    ([[1, 0], [0, 1]], [2, 1], [[1, 0], [0, 1]]) (1/2) none 2 2
    rfl (by norm_num) rfl rfl (by norm_num) rfl rfl (by norm_num) rfl
    (CompressResult.mk [[[255, 255, 255], [0, 0, 0]], [[0, 0, 0], [0, 0, 0]]]
      ⟨[[255, 0], [0, 0]], 4/5, 1⟩ ⟨[[255, 0], [0, 0]], 4/5, 1⟩
      ⟨[[255, 0], [0, 0]], 4/5, 1⟩)
    (by with_unfolding_all decide)
  refine ⟨hT.1, (hT.2 [[255, 255, 255], [0, 0, 0]] (by simp)).1,
    (hT.2 [[255, 255, 255], [0, 0, 0]] (by simp)).2 [255, 255, 255] (by simp)⟩

/-- C9 (amended).  For every sequence of **distinct** parameter values and
every batch of images, the sweep returns one bucket per parameter, in the
caller-supplied parameter order, each holding exactly one record per image
in the caller-supplied image order (parameter-major, image-minor).  The
distinctness hypothesis is forced by the counterexample: buckets live in a
`dict` keyed by the parameter value, so duplicates collapse. -/
theorem compressImages_buckets_ordered {α γ : Type} (paramSet : List ℚ)
    (images : List α) (body : ℚ → α → γ) (hnd : paramSet.Nodup) :
    compressImages paramSet images none body =
      paramSet.map (fun p => (p, images.map (body p))) := by
  have h0 : compressImages paramSet images none body =
      paramSet.foldl
        (fun data param => pydictUpdate data param (images.map (body param))) [] := by
    simp only [compressImages, List.take_length]
  rw [h0]
  have := foldl_pydictUpdate_fresh (fun p => images.map (body p)) paramSet [] hnd
    (by intro p _ kv hkv; cases hkv)
  simpa using this

/-- Witness for the amended C9: two distinct parameters over a batch of two
images produce the two buckets in order, each with both records in image
order. -/
theorem compressImages_buckets_ordered_witness :
    compressImages [(1:ℚ)/2, 9/10] [(3:ℕ), 7] none (fun p i => (p, i)) =
      [(1:ℚ)/2, 9/10].map (fun p => (p, [(3:ℕ), 7].map (fun i => (p, i)))) :=
  compressImages_buckets_ordered [(1:ℚ)/2, 9/10] [(3:ℕ), 7]
    (fun p i => (p, i)) (by with_unfolding_all decide)

/-- C9 (counterexample).  The claim quantifies over every ordered parameter
sequence; the sweep stores buckets in a `dict` keyed by the parameter
value, so a duplicated parameter overwrites its earlier bucket: on the
2-parameter sequence `[1, 1]` the sweep produces 1 bucket, not 2. -/
theorem sweep_duplicate_params_collapse :
    (compressImages [(1:ℚ), 1] [(7:ℕ)] none (fun p i => (p, i))).length ≠
      ([(1:ℚ), 1]).length := by
  with_unfolding_all decide

end SvdCompress
